import Mathlib

unseal Rat.add Rat.mul Rat.sub Rat.inv Rat.ofScientific

/-!
Verification of the Pack-Opener repository's core algorithms.

The repository has three JavaScript variants of the same engine:
  * `src/script.js` (first half) and `src/unnamed/part_000`: the non-unique
    generator (`randomFrom`, `getByRarity`, `weightedRoll`, `pullWeighted`,
    `openPack`);
  * `src/script.js` (second half): the uniqueness-policy generator
    (`filterUnpulled`, `pullUnique`, `pullWeightedUnique`, `openPack`).
All of them are shallowly embedded below.  `Math.random()` is modelled as a
stream `g : Nat → ℚ` of rationals together with a cursor that each
random-consuming call advances by one; `validRng g` states that every drawn
value lies in `[0, 1)`, which is the contract of `Math.random`.
-/

namespace PackOpener

/-- A catalog card: `{name, number, rarity, image}` as loaded from a set JSON. -/
structure Card where
  name : String
  number : String
  rarity : String
  image : String
deriving DecidableEq, Repr

abbrev Catalog := List Card

/-- One entry of a pull table: `{rarity, weight}` as in the literals passed to
`pullWeighted`, with JS numbers modelled as rationals. -/
structure PullEntry where
  rarity : String
  weight : ℚ
deriving DecidableEq, Repr

/-- JS `getByRarity(r)` returns `availableRarities[r] || []`;
`buildAvailableRarities` partitions `cards` by rarity preserving order, so the
lookup equals filtering the catalog by that rarity (and `[]` for an absent
label). -/
def getByRarity (cards : Catalog) (r : String) : List Card :=
  cards.filter (fun c => c.rarity == r)

/-- The valid-randomness contract of Math.random: every drawn value is in [0,1). -/
def validRng (g : ℕ → ℚ) : Prop := ∀ n, 0 ≤ g n ∧ g n < 1

/-- JS `randomFrom(arr)`: `null` on an empty/absent array, otherwise
`arr[Math.floor(Math.random()*arr.length)]`, consuming one random value. -/
def randomFrom (g : ℕ → ℚ) (k : ℕ) (arr : List Card) : Option Card × ℕ :=
  if arr.isEmpty then (none, k)
  else (arr[(⌊g k * arr.length⌋).toNat]?, k + 1)

lemma randomFrom_mem {g : ℕ → ℚ} (hg : validRng g) (k : ℕ) {arr : List Card}
    (h : arr ≠ []) : ∃ c ∈ arr, randomFrom g k arr = (some c, k + 1) := by
  have hlen : 0 < arr.length := List.length_pos.mpr h
  have h0 : (0 : ℚ) ≤ g k := (hg k).1
  have h1 : g k < 1 := (hg k).2
  have hub : g k * arr.length < arr.length := by
    have : g k * arr.length < 1 * arr.length := by
      apply mul_lt_mul_of_pos_right h1
      exact_mod_cast hlen
    simpa using this
  have hlb : (0 : ℚ) ≤ g k * arr.length := by positivity
  have hfl_lt : ⌊g k * (arr.length : ℚ)⌋ < (arr.length : ℤ) := by
    rw [Int.floor_lt]
    exact_mod_cast hub
  have hfl_nonneg : (0 : ℤ) ≤ ⌊g k * (arr.length : ℚ)⌋ := Int.floor_nonneg.mpr hlb
  have hidx : (⌊g k * (arr.length : ℚ)⌋).toNat < arr.length := by
    omega
  refine ⟨arr[(⌊g k * (arr.length : ℚ)⌋).toNat], List.getElem_mem _, ?_⟩
  unfold randomFrom
  rw [if_neg (by simpa [List.isEmpty_iff] using h)]
  rw [List.getElem?_eq_getElem hidx]

lemma randomFrom_nil (g : ℕ → ℚ) (k : ℕ) : randomFrom g k [] = (none, k) := rfl

/-- The `for (let e of f) { if (roll < e.weight) return e.rarity; roll -= e.weight; }`
loop common to `weightedRoll` and the inline roll of `pullWeightedUnique`:
returns the first entry whose weight the running roll is strictly below,
`none` when the loop falls through. -/
def loopSelect : List PullEntry → ℚ → Option String
  | [], _ => none
  | e :: rest, roll => if roll < e.weight then some e.rarity else loopSelect rest (roll - e.weight)

/-- `f.reduce((s,e) => s + e.weight, 0)`. -/
def totalWeight (f : List PullEntry) : ℚ := f.foldl (fun s e => s + e.weight) 0

/-- The rarity of `f[f.length-1]`, the post-loop fallback of the weighted rolls. -/
def lastRarity (f : List PullEntry) : String :=
  ((f.getLast?).map PullEntry.rarity).getD ""

/-- `table.filter(e => getByRarity(e.rarity).length)`: the entries whose rarity
pool is non-empty. -/
def eligible (cards : Catalog) (table : List PullEntry) : List PullEntry :=
  table.filter (fun e => !(getByRarity cards e.rarity).isEmpty)

/-- JS `weightedRoll(table)`: filter out entries with empty pools, return `null`
if none remain, otherwise roll `Math.random()*total` and walk the filtered
table in order, falling back to the last filtered entry's rarity after the
loop. -/
def weightedRoll (cards : Catalog) (g : ℕ → ℚ) (k : ℕ) (table : List PullEntry) :
    Option String × ℕ :=
  let f := eligible cards table
  if f.isEmpty then (none, k)
  else
    let roll := g k * totalWeight f
    (some (match loopSelect f roll with
           | some r => r
           | none => lastRarity f), k + 1)

/-- `getByRarity` applied to the possibly-`null` result of `weightedRoll`
(JS `availableRarities[null]` is undefined, hence `|| []`). -/
def getByRarityOpt (cards : Catalog) : Option String → List Card
  | none => []
  | some r => getByRarity cards r

/-- JS `pullWeighted(table)`: `randomFrom(getByRarity(weightedRoll(table))) || randomFrom(cards)`;
the right operand is only evaluated (and only consumes randomness) when the
left one is `null`. -/
def pullWeighted (cards : Catalog) (g : ℕ → ℚ) (k : ℕ) (table : List PullEntry) :
    Option Card × ℕ :=
  let rk := weightedRoll cards g k table
  let ck := randomFrom g rk.2 (getByRarityOpt cards rk.1)
  match ck.1 with
  | some c => (some c, ck.2)
  | none => randomFrom g ck.2 cards

/-- A fixed-rarity slot of the non-unique variant:
`randomFrom(getByRarity(r)) || randomFrom(cards)`. -/
def fixedPull (cards : Catalog) (g : ℕ → ℚ) (k : ℕ) (r : String) : Option Card × ℕ :=
  let ck := randomFrom g k (getByRarity cards r)
  match ck.1 with
  | some c => (some c, ck.2)
  | none => randomFrom g ck.2 cards

/-- One slot of the pack template: either a fixed-rarity draw or a weighted one. -/
inductive Slot where
  | fixed (r : String)
  | weighted (t : List PullEntry)
deriving DecidableEq, Repr

/-- The slot-8 pull table literal of `openPack`. -/
def table8 : List PullEntry :=
  [⟨("Common"), 55⟩, ⟨("Uncommon"), 32⟩, ⟨("Rare"), 11⟩,
   ⟨("Illustration Rare"), 1.5⟩, ⟨("Special Illustration Rare"), 0.4⟩,
   ⟨("Hyper Rare"), 0.1⟩]

/-- The slot-9 pull table literal of `openPack`. -/
def table9 : List PullEntry :=
  [⟨("Common"), 35⟩, ⟨("Uncommon"), 43⟩, ⟨("Rare"), 18⟩,
   ⟨("Illustration Rare"), 12⟩, ⟨("Special Illustration Rare"), 2.3⟩,
   ⟨("Hyper Rare"), 0.7⟩]

/-- The slot-10 pull table literal of `openPack`. -/
def table10 : List PullEntry :=
  [⟨("Rare"), 11⟩, ⟨("Double Rare"), 3⟩, ⟨("Ultra Rare"), 1⟩]

/-- The 4 + 3 + 3 slot template hard-coded in every `openPack` variant. -/
def packTemplate : List Slot :=
  [.fixed ("Common"), .fixed ("Common"), .fixed ("Common"), .fixed ("Common"),
   .fixed ("Uncommon"), .fixed ("Uncommon"), .fixed ("Uncommon"),
   .weighted table8, .weighted table9, .weighted table10]

/-- One slot draw of the non-unique `openPack`. -/
def slotPullV1 (cards : Catalog) (g : ℕ → ℚ) (k : ℕ) : Slot → Option Card × ℕ
  | .fixed r => fixedPull cards g k r
  | .weighted t => pullWeighted cards g k t

/-- One `pulls.push(...)` of the non-unique `openPack`: the slot's result is
pushed unconditionally. -/
def packStepV1 (cards : Catalog) (g : ℕ → ℚ) (acc : List (Option Card) × ℕ) (s : Slot) :
    List (Option Card) × ℕ :=
  let ck := slotPullV1 cards g acc.2 s
  (acc.1 ++ [ck.1], ck.2)

/-- The `pulls` array built by the non-unique `openPack` (the guard
`if (!cards.length) return;` yields no pack at all for an empty catalog). -/
def openPackV1Pulls (cards : Catalog) (g : ℕ → ℚ) : List (Option Card) :=
  if cards.isEmpty then []
  else (packTemplate.foldl (packStepV1 cards g) (([] : List (Option Card)), 0)).1

/-! ## Uniqueness variant (second half of src/script.js) -/

/-- JS `getCardKey(c)` (non-null case): the identity key `name + "_" + number`. -/
def getCardKey (c : Card) : String := c.name ++ "_" ++ c.number

/-- JS `filterUnpulled(arr)`: keep cards whose key is truthy (a template string
containing `_`, so never empty) and not yet in `pulledKeys`. -/
def filterUnpulled (pulled : List String) (arr : List Card) : List Card :=
  arr.filter (fun c => (getCardKey c != "") && !(pulled.contains (getCardKey c)))

/-- JS `pullUnique(rarity)`: draw from the unpulled part of the rarity pool,
fall back to the unpulled part of the whole catalog, return `null` when both
are exhausted. -/
def pullUnique (cards : Catalog) (g : ℕ → ℚ) (k : ℕ) (pulled : List String)
    (r : String) : Option Card × ℕ :=
  let available := filterUnpulled pulled (getByRarity cards r)
  if available.isEmpty then
    let fallback := filterUnpulled pulled cards
    if fallback.isEmpty then (none, k) else randomFrom g k fallback
  else randomFrom g k available

/-- JS `pullWeightedUnique(table)`: filter the table to rarities with unpulled
cards; empty table or zero total weight fall back to the unpulled catalog;
otherwise roll, walk the table (the `!selectedRarity` falsiness check also
treats an empty-string rarity as unset), and draw from the selected rarity's
unpulled pool, again falling back to the unpulled catalog when it is empty. -/
def pullWeightedUnique (cards : Catalog) (g : ℕ → ℚ) (k : ℕ) (pulled : List String)
    (table : List PullEntry) : Option Card × ℕ :=
  let filteredTable := table.filter
    (fun e => !(filterUnpulled pulled (getByRarity cards e.rarity)).isEmpty)
  if filteredTable.isEmpty then
    let fallback := filterUnpulled pulled cards
    if fallback.isEmpty then (none, k) else randomFrom g k fallback
  else
    let total := totalWeight filteredTable
    if total = 0 then
      let fallback := filterUnpulled pulled cards
      if fallback.isEmpty then (none, k) else randomFrom g k fallback
    else
      let roll := g k * total
      let rar := match loopSelect filteredTable roll with
                 | some r => if r = "" then lastRarity filteredTable else r
                 | none => lastRarity filteredTable
      let available := filterUnpulled pulled (getByRarity cards rar)
      if available.isEmpty then
        let fallback := filterUnpulled pulled cards
        if fallback.isEmpty then (none, k + 1) else randomFrom g (k + 1) fallback
      else randomFrom g (k + 1) available

/-- One slot draw of the uniqueness-variant `openPack`. -/
def slotPullUnique (cards : Catalog) (g : ℕ → ℚ) (k : ℕ) (pulled : List String) :
    Slot → Option Card × ℕ
  | .fixed r => pullUnique cards g k pulled r
  | .weighted t => pullWeightedUnique cards g k pulled t

/-- The running state of the uniqueness-variant `openPack`: the `pulls` array,
the `pulledKeys` set (as a list queried only through `contains`), and the
randomness cursor. -/
structure PackState where
  pulls : List Card
  pulled : List String
  k : ℕ
deriving Repr

/-- One slot of the uniqueness-variant `openPack`:
`const card = pull...; if (card) { pulls.push(card); pulledKeys.add(getCardKey(card)); }`. -/
def packStep (cards : Catalog) (g : ℕ → ℚ) (st : PackState) (s : Slot) : PackState :=
  let ck := slotPullUnique cards g st.k st.pulled s
  match ck.1 with
  | some card => ⟨st.pulls ++ [card], st.pulled ++ [getCardKey card], ck.2⟩
  | none => ⟨st.pulls, st.pulled, ck.2⟩

/-- The `pulls` array built by the uniqueness-variant `openPack` (empty-catalog
guard included). -/
def openPackUnique (cards : Catalog) (g : ℕ → ℚ) : List Card :=
  if cards.isEmpty then []
  else (packTemplate.foldl (packStep cards g) ⟨[], [], 0⟩).pulls

/-! ## Stats tracker and collection ledger -/

/-- The `stats` object: `{packsOpened, totalCards, rarities}` with the rarity
map rendered as an association list. -/
structure Stats where
  packsOpened : ℕ
  totalCards : ℕ
  rarities : List (String × ℕ)
deriving DecidableEq, Repr

/-- `stats.rarities[r] = (stats.rarities[r] || 0) + 1` on an association list. -/
def bumpRarity (rs : List (String × ℕ)) (r : String) : List (String × ℕ) :=
  if rs.any (fun p => p.1 == r) then
    rs.map (fun p => if p.1 == r then (p.1, p.2 + 1) else p)
  else rs ++ [(r, 1)]

/-- The stats fold of `openPack`: `packsOpened++`, `totalCards += pulls.length`,
and one rarity bump per drawn card. -/
def recordStats (s : Stats) (pulls : List Card) : Stats :=
  { packsOpened := s.packsOpened + 1,
    totalCards := s.totalCards + pulls.length,
    rarities := pulls.foldl (fun rs c => bumpRarity rs c.rarity) s.rarities }

/-- A collection entry: the spread card fields plus the pull `count`. -/
structure CEntry where
  name : String
  number : String
  rarity : String
  image : String
  count : ℕ
deriving DecidableEq, Repr

/-- The `collection` object keyed by identity key, as an association list. -/
abbrev Collection := List (String × CEntry)

/-- `collection[key]` on the association-list model. -/
def lookupKey (coll : Collection) (key : String) : Option CEntry :=
  (coll.find? (fun p => p.1 == key)).map Prod.snd

/-- `{ ...c, count: 0 }`. -/
def entryOf (c : Card) : CEntry := ⟨c.name, c.number, c.rarity, c.image, 0⟩

/-- `collection[key].count++` on the association-list model. -/
def bumpCount (coll : Collection) (key : String) : Collection :=
  coll.map (fun p => if p.1 == key then (p.1, { p.2 with count := p.2.count + 1 }) else p)

/-- The per-card ledger fold of `openPack`:
`if (!collection[key]) collection[key] = { ...c, count: 0 }; collection[key].count++;`. -/
def record (coll : Collection) (c : Card) : Collection :=
  let key := getCardKey c
  let coll1 := if (lookupKey coll key).isNone then coll ++ [(key, entryOf c)] else coll
  bumpCount coll1 key

/-- `pulls.forEach(c => ...record...)`. -/
def foldRecord (coll : Collection) (cs : List Card) : Collection :=
  cs.foldl record coll

/-- The uniqueness-variant `openPack` with its state effects: the early
`if (!cards.length) { alert("Set not loaded"); return; }` path yields no pack,
leaves stats and collection untouched and surfaces the alert message;
otherwise the pulls are drawn and folded into stats and collection. -/
def openPackUniqueFull (cards : Catalog) (g : ℕ → ℚ) (s : Stats) (coll : Collection) :
    Option (List Card) × Stats × Collection × Option String :=
  if cards.isEmpty then (none, s, coll, some ("Set not loaded"))
  else
    let pulls := (packTemplate.foldl (packStep cards g) ⟨[], [], 0⟩).pulls
    (some pulls, recordStats s pulls, foldRecord coll pulls, none)

/-- The non-unique `openPack` with its state effects.  The JS stats/ledger fold
reads `c.rarity` of every pushed pull; with a valid randomness source every
push is `some` (see `openPackV1_ten_cards`), so the fold runs over
`pulls.reduceOption`. -/
def openPackV1Full (cards : Catalog) (g : ℕ → ℚ) (s : Stats) (coll : Collection) :
    Option (List (Option Card)) × Stats × Collection × Option String :=
  if cards.isEmpty then (none, s, coll, some ("Set not loaded"))
  else
    let pulls := openPackV1Pulls cards g
    (some pulls, recordStats s pulls.reduceOption, foldRecord coll pulls.reduceOption, none)

/-! ## Catalog-load validation (validateSetJSON / applySetJSON) -/

/-- A raw card record as it arrives in the `data` array of a set JSON: each of
the four required fields may be absent. -/
structure RawCard where
  name : Option String
  number : Option String
  rarity : Option String
  image : Option String
deriving DecidableEq, Repr

/-- JS falsiness of a string-valued field: absent, or the empty string. -/
def jsFalsy : Option String → Bool
  | none => true
  | some s => s == ""

/-- A raw card fails `validateSetJSON`'s per-card checks. -/
def hasMissing (c : RawCard) : Bool :=
  jsFalsy c.name || jsFalsy c.number || jsFalsy c.rarity || jsFalsy c.image

/-- The field name the validation loop reports first for a failing card. -/
def firstMissingField (c : RawCard) : String :=
  if jsFalsy c.name then ("name")
  else if jsFalsy c.number then ("number")
  else if jsFalsy c.rarity then ("rarity")
  else ("image")

/-- The indexed card loop of `validateSetJSON`: return the first
`Card i missing field` message, or `null`. -/
def validateCards : ℕ → List RawCard → Option String
  | _, [] => none
  | i, c :: rest =>
    if jsFalsy c.name then some (("Card ") ++ toString i ++ (" missing name"))
    else if jsFalsy c.number then some (("Card ") ++ toString i ++ (" missing number"))
    else if jsFalsy c.rarity then some (("Card ") ++ toString i ++ (" missing rarity"))
    else if jsFalsy c.image then some (("Card ") ++ toString i ++ (" missing image"))
    else validateCards (i + 1) rest

/-- JS `validateSetJSON(j)` on the `data` array (the root-shape checks concern
JS dynamic typing of `j` itself and are outside the per-card claim). -/
def validateSetJSON (j : List RawCard) : Option String := validateCards 0 j

/-- A validated raw card materialized as a catalog card. -/
def toCard (c : RawCard) : Card :=
  ⟨c.name.getD "", c.number.getD "", c.rarity.getD "", c.image.getD ""⟩

/-- JS `applySetJSON(j)`: on a validation error, alert `Invalid set:` plus the
message and return with `cards` untouched; otherwise install `j.data` as the
new catalog (the rarity pools are rebuilt from it, see `getByRarity`). -/
def applySetJSON (oldCards : Catalog) (j : List RawCard) : Catalog × Option String :=
  match validateSetJSON j with
  | some err => (oldCards, some (("Invalid set:\n") ++ err))
  | none => (j.map toCard, none)

/-! ## Collection sort (renderCollection) -/

/-- The regex `/^(\d+)([a-z]?)$/i` applied to a card number: one or more
digits, then an optional single letter, then end of string; returns the parsed
leading integer (`parseInt(ma[1])`) and the suffix (`ma[2] || ""`). -/
def matchCardNumber (s : String) : Option (ℕ × String) :=
  let cs := s.toList
  let digits := cs.takeWhile Char.isDigit
  let rest := cs.dropWhile Char.isDigit
  if digits.isEmpty then none
  else
    let n := digits.foldl (fun acc ch => acc * 10 + (ch.toNat - 48)) 0
    match rest with
    | [] => some (n, "")
    | [ch] => if ch.isAlpha then some (n, String.mk [ch]) else none
    | _ => none

/-- The inline comparator of `renderCollection`'s sort: numeric key first, then
the letter suffix by string comparison.  A number failing the pattern makes
`ma`/`mb` null and `ma[1]` throw a TypeError, modelled as `none`. -/
def compareEntries (a b : CEntry) : Option ℤ :=
  match matchCardNumber a.number, matchCardNumber b.number with
  | some pa, some pb =>
      if pa.1 ≠ pb.1 then some ((pa.1 : ℤ) - (pb.1 : ℤ))
      else if pa.2 < pb.2 then some (-1)
      else if pb.2 < pa.2 then some 1
      else some 0
  | _, _ => none

/-- `arr.sort(comparator)` with the throwing comparator above: sorting two or
more entries invokes the comparator on every element at least once, so any
entry with an unparsable number aborts the whole sort with the TypeError
(`none`); a list of at most one entry never invokes the comparator. -/
def jsSortEntries (arr : List CEntry) : Option (List CEntry) :=
  if arr.length ≤ 1 then some arr
  else if arr.any (fun a => (matchCardNumber a.number).isNone) then none
  else some (arr.mergeSort (fun a b => (compareEntries a b).getD 0 ≤ 0))

/-! ## Completion progress (updateStatsDisplay) -/

/-- The rarity labels of the regular set. -/
def regularRarities : List String := ["Common", "Uncommon", "Rare", "Double Rare"]

/-- `cards.filter(c => regularRarities.includes(c.rarity)).length`. -/
def regularMax (cards : Catalog) : ℕ :=
  (cards.filter (fun c => regularRarities.contains c.rarity)).length

/-- `Object.values(collection).filter(c => c.count > 0 && regular).length`. -/
def regularCollected (coll : Collection) : ℕ :=
  (coll.filter (fun p => decide (0 < p.2.count) && regularRarities.contains p.2.rarity)).length

/-- `Object.values(collection).filter(c => c.count > 0).length`. -/
def masterCollected (coll : Collection) : ℕ :=
  (coll.filter (fun p => decide (0 < p.2.count))).length

/-- JS division whose result feeds a progress bar: dividing by zero yields
NaN/Infinity, modelled as `none`. -/
def jsDiv (a b : ℚ) : Option ℚ := if b = 0 then none else some (a / b)

/-- First script variant: `(regularCollected / regularMax) * 100`, unguarded. -/
def regularProgressV1 (cards : Catalog) (coll : Collection) : Option ℚ :=
  (jsDiv (regularCollected coll) (regularMax cards)).map (fun q => q * 100)

/-- First script variant: `(masterCollected / masterMax) * 100`, unguarded
(`masterMax` is `cards.length`). -/
def masterProgressV1 (cards : Catalog) (coll : Collection) : Option ℚ :=
  (jsDiv (masterCollected coll) (cards.length)).map (fun q => q * 100)

/-- Second script variant: `regularMax > 0 ? (regularCollected / regularMax) * 100 : 0`. -/
def regularProgressV2 (cards : Catalog) (coll : Collection) : ℚ :=
  if 0 < regularMax cards then ((regularCollected coll : ℚ) / (regularMax cards : ℚ)) * 100
  else 0

/-- Second script variant: `masterMax > 0 ? (masterCollected / masterMax) * 100 : 0`. -/
def masterProgressV2 (cards : Catalog) (coll : Collection) : ℚ :=
  if 0 < cards.length then ((masterCollected coll : ℚ) / (cards.length : ℚ)) * 100
  else 0

/-! ## Spec-worded weighted selection and non-degeneracy -/

/-- Transcribed from the spec's words: walk the remaining entries in table
order, subtracting each weight from the running roll, and select the first
entry whose weight the running roll is strictly less than. -/
def specWalk : List PullEntry → ℚ → Option String
  | [], _ => none
  | e :: rest, roll => if roll < e.weight then some e.rarity else specWalk rest (roll - e.weight)

/-- Transcribed from the spec's words: first remove every entry whose rarity
pool is empty, then run the subtract-and-compare walk on a roll drawn
uniformly from `[0, sum of remaining weights)`. -/
def specWeightedChoice (cards : Catalog) (table : List PullEntry) (roll : ℚ) : Option String :=
  specWalk (table.filter (fun e => !(getByRarity cards e.rarity).isEmpty)) roll

/-- The rarities a slot's draw names: the fixed rarity, or the rarities of the
weighted slot's pull table. -/
def slotRarities : Slot → List String
  | .fixed r => [r]
  | .weighted t => t.map PullEntry.rarity

/-- A catalog is non-degenerate for the pack template when every rarity named
in every slot has at least one card. -/
def nonDegenerate (cards : Catalog) : Bool :=
  packTemplate.all (fun s => (slotRarities s).all (fun r => !(getByRarity cards r).isEmpty))

/-- The distinct identity keys of a catalog. -/
def distinctKeys (cards : Catalog) : List String := (cards.map getCardKey).dedup

/-- Loop invariant of the uniqueness-variant `openPack`: the keys of the pulls
so far are pairwise distinct, `pulledKeys` holds exactly those keys, and every
pull came from the catalog. -/
def InvState (cards : Catalog) (st : PackState) : Prop :=
  (st.pulls.map getCardKey).Nodup ∧
  (∀ s, s ∈ st.pulled ↔ s ∈ st.pulls.map getCardKey) ∧
  ∀ c ∈ st.pulls, c ∈ cards

/-- The count held in the ledger for a key, zero when absent. -/
def entryCount (coll : Collection) (key : String) : ℕ :=
  ((lookupKey coll key).map CEntry.count).getD 0

/-- `"Invalid set:\n" + "Card i missing field"`: the alert produced by
`applySetJSON` for a card record failing validation. -/
def missingReport (idx : ℕ) (c : RawCard) : String :=
  ("Invalid set:\nCard ") ++ toString idx ++ (" missing ") ++ firstMissingField c

/-! ## Concrete fixtures used by witnesses and counterexamples -/

/-- The all-zero randomness stream (every draw picks index 0). -/
def gZero : ℕ → ℚ := fun _ => 0

/-- The constant one-half randomness stream. -/
def gHalf : ℕ → ℚ := fun _ => 1 / 2

/-- A non-degenerate catalog (every rarity named by the pack template owns a
card) with exactly eight distinct identity keys. -/
def catND8 : Catalog :=
  [⟨"A", "1", "Common", "i"⟩, ⟨"B", "2", "Uncommon", "i"⟩, ⟨"C", "3", "Rare", "i"⟩,
   ⟨"D", "4", "Double Rare", "i"⟩, ⟨"E", "5", "Illustration Rare", "i"⟩,
   ⟨"F", "6", "Ultra Rare", "i"⟩, ⟨"G", "7", "Special Illustration Rare", "i"⟩,
   ⟨"H", "8", "Hyper Rare", "i"⟩]

/-- A non-degenerate catalog with ten distinct identity keys. -/
def catND10 : Catalog :=
  catND8 ++ [⟨"I", "9", "Common", "i"⟩, ⟨"J", "10", "Common", "i"⟩]

/-- A catalog with three distinct identity keys. -/
def cat3 : Catalog :=
  [⟨"A", "1", "Common", "i"⟩, ⟨"B", "2", "Uncommon", "i"⟩, ⟨"C", "3", "Rare", "i"⟩]

/-- A single-card catalog. -/
def cat1 : Catalog := [⟨"A", "1", "Common", "i"⟩]

/-- A two-card catalog: one Common, one Rare. -/
def cards2 : Catalog := [⟨"A", "1", "Common", "i"⟩, ⟨"B", "2", "Rare", "i"⟩]

/-- A pull table whose only entry has weight zero. -/
def tableZ : List PullEntry := [⟨("Common"), 0⟩]

/-- A pull table with a single positively weighted entry. -/
def tableC : List PullEntry := [⟨("Common"), 2⟩]

/-- A raw load whose only card lacks the `number` field. -/
def rawJBad : List RawCard := [⟨some ("X"), none, some ("R"), some ("i")⟩]

/-- A draw sequence that records one identity twice and another once. -/
def recCards : List Card :=
  [⟨"A", "1", "Common", "i"⟩, ⟨"A", "1", "Common", "i"⟩, ⟨"B", "2", "Rare", "i"⟩]

/-- A collection entry with a well-formed card number. -/
def entryGood : CEntry := ⟨"A", "1", "Common", "i", 1⟩

/-- A collection entry whose number fails the sort-key pattern. -/
def entryBad : CEntry := ⟨"B", "promo", "Rare", "i", 1⟩

/-! ## Basic lemmas -/

lemma validRng_gZero : validRng gZero := by
  intro n
  constructor <;> norm_num [gZero]

lemma validRng_gHalf : validRng gHalf := by
  intro n
  constructor <;> norm_num [gHalf]

lemma mem_getByRarity {cards : Catalog} {r : String} {c : Card} :
    c ∈ getByRarity cards r ↔ c ∈ cards ∧ c.rarity = r := by
  simp [getByRarity, List.mem_filter]

lemma getCardKey_ne_empty (c : Card) : getCardKey c ≠ "" := by
  intro h
  have hlen := congrArg String.length h
  simp [getCardKey, String.length_append] at hlen
  exact absurd hlen.1.2 (by decide)

lemma mem_filterUnpulled {pulled : List String} {arr : List Card} {c : Card} :
    c ∈ filterUnpulled pulled arr ↔ c ∈ arr ∧ getCardKey c ∉ pulled := by
  simp [filterUnpulled, List.mem_filter, getCardKey_ne_empty c]

lemma filterUnpulled_eq_nil_iff {pulled : List String} {arr : List Card} :
    filterUnpulled pulled arr = [] ↔ ∀ c ∈ arr, getCardKey c ∈ pulled := by
  constructor
  · intro h c hc
    by_contra hk
    have : c ∈ filterUnpulled pulled arr := mem_filterUnpulled.mpr ⟨hc, hk⟩
    simp [h] at this
  · intro h
    by_contra hne
    obtain ⟨c, hc⟩ := List.exists_mem_of_ne_nil _ hne
    have := mem_filterUnpulled.mp hc
    exact this.2 (h c this.1)

lemma filterUnpulled_rarity_subset {pulled : List String} {cards : Catalog} {r : String} :
    filterUnpulled pulled (getByRarity cards r) ⊆ filterUnpulled pulled cards := by
  intro c hc
  have h := mem_filterUnpulled.mp hc
  exact mem_filterUnpulled.mpr ⟨(mem_getByRarity.mp h.1).1, h.2⟩

lemma totalWeight_aux (f : List PullEntry) (s : ℚ) :
    f.foldl (fun a e => a + e.weight) s = s + totalWeight f := by
  induction f generalizing s with
  | nil => simp [totalWeight]
  | cons e rest ih =>
    simp only [List.foldl_cons]
    rw [ih (s + e.weight)]
    have h2 : totalWeight (e :: rest) = 0 + e.weight + totalWeight rest := by
      show (e :: rest).foldl (fun a x => a + x.weight) 0 = _
      rw [List.foldl_cons, ih]
    rw [h2]
    ring

lemma totalWeight_cons (e : PullEntry) (f : List PullEntry) :
    totalWeight (e :: f) = e.weight + totalWeight f := by
  show (e :: f).foldl (fun a x => a + x.weight) 0 = _
  rw [List.foldl_cons, totalWeight_aux]
  ring

lemma loopSelect_isSome {f : List PullEntry} {roll : ℚ}
    (h0 : 0 ≤ roll) (h1 : roll < totalWeight f) : (loopSelect f roll).isSome := by
  induction f generalizing roll with
  | nil =>
    exfalso
    rw [totalWeight] at h1
    simp at h1
    exact absurd (lt_of_le_of_lt h0 h1) (lt_irrefl 0)
  | cons e rest ih =>
    rw [loopSelect]
    by_cases hw : roll < e.weight
    · simp [hw]
    · rw [if_neg hw]
      apply ih
      · linarith [not_lt.mp hw]
      · rw [totalWeight_cons] at h1
        linarith

lemma loopSelect_eq_specWalk (f : List PullEntry) (roll : ℚ) :
    loopSelect f roll = specWalk f roll := by
  induction f generalizing roll with
  | nil => rfl
  | cons e rest ih =>
    rw [loopSelect, specWalk]
    by_cases hw : roll < e.weight
    · simp [hw]
    · simp only [if_neg hw]
      exact ih _

lemma loopSelect_mem {f : List PullEntry} {roll : ℚ} {r : String}
    (h : loopSelect f roll = some r) : ∃ e ∈ f, e.rarity = r := by
  induction f generalizing roll with
  | nil => simp [loopSelect] at h
  | cons e rest ih =>
    rw [loopSelect] at h
    by_cases hw : roll < e.weight
    · rw [if_pos hw] at h
      exact ⟨e, List.mem_cons_self e rest, (Option.some_injective _ h).symm ▸ rfl⟩
    · rw [if_neg hw] at h
      obtain ⟨e2, he2, hr⟩ := ih h
      exact ⟨e2, List.mem_cons_of_mem e he2, hr⟩

lemma lastRarity_mem {f : List PullEntry} (h : f ≠ []) :
    ∃ e ∈ f, e.rarity = lastRarity f := by
  refine ⟨f.getLast h, List.getLast_mem h, ?_⟩
  rw [lastRarity, List.getLast?_eq_getLast f h]
  rfl

lemma mem_eligible {cards : Catalog} {table : List PullEntry} {e : PullEntry} :
    e ∈ eligible cards table ↔ e ∈ table ∧ getByRarity cards e.rarity ≠ [] := by
  simp [eligible, List.mem_filter, List.isEmpty_iff]

/-! ## Draw lemmas for the non-unique variant -/

lemma weightedRoll_some {cards : Catalog} {g : ℕ → ℚ} {k : ℕ} {table : List PullEntry}
    (hne : eligible cards table ≠ []) :
    ∃ r, weightedRoll cards g k table = (some r, k + 1) ∧ getByRarity cards r ≠ [] := by
  rw [weightedRoll]
  simp only [List.isEmpty_iff, if_neg hne]
  set f := eligible cards table with hf
  set roll := g k * totalWeight f with hroll
  refine ⟨_, rfl, ?_⟩
  cases hsel : loopSelect f roll with
  | some r =>
    obtain ⟨e, he, hr⟩ := loopSelect_mem hsel
    simp only [hsel]
    exact hr ▸ (mem_eligible.mp he).2
  | none =>
    obtain ⟨e, he, hr⟩ := lastRarity_mem hne
    simp only [hsel]
    exact hr ▸ (mem_eligible.mp he).2

lemma fixedPull_some {cards : Catalog} {g : ℕ → ℚ} (hg : validRng g) (k : ℕ)
    {r : String} (h : getByRarity cards r ≠ []) :
    ∃ c ∈ getByRarity cards r, fixedPull cards g k r = (some c, k + 1) := by
  obtain ⟨c, hc, heq⟩ := randomFrom_mem hg k h
  exact ⟨c, hc, by rw [fixedPull, heq]⟩

lemma pullWeighted_some {cards : Catalog} {g : ℕ → ℚ} (hg : validRng g) (k : ℕ)
    {table : List PullEntry} (hne : eligible cards table ≠ []) :
    ∃ c κ, pullWeighted cards g k table = (some c, κ) := by
  obtain ⟨r, hroll, hpool⟩ := weightedRoll_some (g := g) (k := k) hne
  obtain ⟨c, hc, heq⟩ := randomFrom_mem hg (k + 1) hpool
  refine ⟨c, k + 2, ?_⟩
  rw [pullWeighted, hroll]
  show (match (randomFrom g (k+1) (getByRarityOpt cards (some r))).1 with
        | some c => (some c, (randomFrom g (k+1) (getByRarityOpt cards (some r))).2)
        | none => randomFrom g (randomFrom g (k+1) (getByRarityOpt cards (some r))).2 cards) = _
  rw [getByRarityOpt, heq]

lemma slotPullV1_some {cards : Catalog} {g : ℕ → ℚ} (hg : validRng g) (k : ℕ) {s : Slot}
    (hs : ∀ r ∈ slotRarities s, getByRarity cards r ≠ []) (h2 : slotRarities s ≠ []) :
    ∃ c κ, slotPullV1 cards g k s = (some c, κ) := by
  cases s with
  | fixed r =>
    obtain ⟨c, _, heq⟩ := fixedPull_some hg k (hs r (by simp [slotRarities]))
    exact ⟨c, k + 1, heq⟩
  | weighted t =>
    apply pullWeighted_some hg
    cases t with
    | nil => simp [slotRarities] at h2
    | cons e rest =>
      intro hcon
      have he : e ∈ eligible cards (e :: rest) :=
        mem_eligible.mpr ⟨List.mem_cons_self e rest,
          hs e.rarity (by simp [slotRarities])⟩
      simp [hcon] at he

lemma v1_foldl_length (cards : Catalog) (g : ℕ → ℚ) :
    ∀ (slots : List Slot) (acc : List (Option Card) × ℕ),
      ((slots.foldl (packStepV1 cards g) acc).1).length = acc.1.length + slots.length := by
  intro slots
  induction slots with
  | nil => intro acc; simp
  | cons s rest ih =>
    intro acc
    rw [List.foldl_cons, ih]
    simp [packStepV1]
    omega

lemma v1_foldl_isSome {cards : Catalog} {g : ℕ → ℚ} :
    ∀ (slots : List Slot) (acc : List (Option Card) × ℕ),
      (∀ s ∈ slots, ∀ k, ∃ c κ, slotPullV1 cards g k s = (some c, κ)) →
      (∀ x ∈ acc.1, x.isSome) →
      ∀ x ∈ (slots.foldl (packStepV1 cards g) acc).1, x.isSome := by
  intro slots
  induction slots with
  | nil => intro acc _ hacc; simpa using hacc
  | cons s rest ih =>
    intro acc hslots hacc
    rw [List.foldl_cons]
    apply ih
    · intro s2 hs2 k
      exact hslots s2 (List.mem_cons_of_mem s hs2) k
    · intro x hx
      obtain ⟨c, κ, heq⟩ := hslots s (List.mem_cons_self s rest) acc.2
      simp only [packStepV1, heq, List.mem_append] at hx
      rcases hx with hx | hx
      · exact hacc x hx
      · simp at hx
        simp [hx]

lemma nonDegenerate_iff {cards : Catalog} :
    nonDegenerate cards = true ↔
      ∀ s ∈ packTemplate, ∀ r ∈ slotRarities s, getByRarity cards r ≠ [] := by
  simp [nonDegenerate, List.all_eq_true, List.isEmpty_iff]

/-- With a valid randomness source and a non-degenerate catalog, the
non-unique `openPack` pushes exactly ten pulls and every one of them is a
card. -/
lemma openPackV1_ten_cards {cards : Catalog} {g : ℕ → ℚ} (hg : validRng g)
    (hnd : nonDegenerate cards = true) :
    (openPackV1Pulls cards g).length = 10 ∧
      ∀ x ∈ openPackV1Pulls cards g, x.isSome := by
  have hcne : cards ≠ [] := by
    intro h
    subst h
    have := nonDegenerate_iff.mp hnd (Slot.fixed ("Common")) (by simp [packTemplate])
      ("Common") (by simp [slotRarities])
    simp [getByRarity] at this
  have hguard : cards.isEmpty = false := by
    simpa [List.isEmpty_iff] using hcne
  constructor
  · rw [openPackV1Pulls, hguard]
    simp only [Bool.false_eq_true, if_false]
    rw [v1_foldl_length]
    rfl
  · intro x hx
    rw [openPackV1Pulls, hguard] at hx
    simp only [Bool.false_eq_true, if_false] at hx
    refine v1_foldl_isSome packTemplate _ ?_ (by simp) x hx
    intro s hs k
    apply slotPullV1_some hg k (nonDegenerate_iff.mp hnd s hs)
    revert s
    decide

/-! ## Draw lemmas for the uniqueness variant -/

lemma pullUnique_none {cards : Catalog} {g : ℕ → ℚ} {k : ℕ} {pulled : List String}
    {r : String} (h : filterUnpulled pulled cards = []) :
    pullUnique cards g k pulled r = (none, k) := by
  have hav : filterUnpulled pulled (getByRarity cards r) = [] :=
    List.subset_nil.mp (h ▸ filterUnpulled_rarity_subset)
  rw [pullUnique]
  simp [hav, h]

lemma pullUnique_some {cards : Catalog} {g : ℕ → ℚ} (hg : validRng g) {k : ℕ}
    {pulled : List String} {r : String} (h : filterUnpulled pulled cards ≠ []) :
    ∃ c κ, pullUnique cards g k pulled r = (some c, κ) ∧
      c ∈ filterUnpulled pulled cards := by
  rw [pullUnique]
  by_cases hav : (filterUnpulled pulled (getByRarity cards r)).isEmpty
  · obtain ⟨c, hc, heq⟩ := randomFrom_mem hg k h
    refine ⟨c, k + 1, ?_, hc⟩
    rw [if_pos hav]
    simp only [List.isEmpty_iff, h, if_neg]
    exact heq
  · have hne : filterUnpulled pulled (getByRarity cards r) ≠ [] := by
      simpa [List.isEmpty_iff] using hav
    obtain ⟨c, hc, heq⟩ := randomFrom_mem hg k hne
    exact ⟨c, k + 1, by rw [if_neg hav]; exact heq, filterUnpulled_rarity_subset hc⟩

lemma pullWeightedUnique_none {cards : Catalog} {g : ℕ → ℚ} {k : ℕ}
    {pulled : List String} {table : List PullEntry}
    (h : filterUnpulled pulled cards = []) :
    pullWeightedUnique cards g k pulled table = (none, k) := by
  have hft : table.filter
      (fun e => !(filterUnpulled pulled (getByRarity cards e.rarity)).isEmpty) = [] := by
    rw [List.filter_eq_nil_iff]
    intro e _
    have : filterUnpulled pulled (getByRarity cards e.rarity) = [] :=
      List.subset_nil.mp (h ▸ filterUnpulled_rarity_subset)
    simp [this]
  rw [pullWeightedUnique]
  simp [hft, h]

lemma pullWeightedUnique_some {cards : Catalog} {g : ℕ → ℚ} (hg : validRng g) {k : ℕ}
    {pulled : List String} {table : List PullEntry}
    (h : filterUnpulled pulled cards ≠ []) :
    ∃ c κ, pullWeightedUnique cards g k pulled table = (some c, κ) ∧
      c ∈ filterUnpulled pulled cards := by
  rw [pullWeightedUnique]
  set ft := table.filter
    (fun e => !(filterUnpulled pulled (getByRarity cards e.rarity)).isEmpty) with hft
  by_cases hfe : ft.isEmpty
  · obtain ⟨c, hc, heq⟩ := randomFrom_mem hg k h
    refine ⟨c, k + 1, ?_, hc⟩
    rw [if_pos hfe]
    simp only [List.isEmpty_iff, h, if_neg]
    exact heq
  · rw [if_neg hfe]
    by_cases htot : totalWeight ft = 0
    · obtain ⟨c, hc, heq⟩ := randomFrom_mem hg k h
      refine ⟨c, k + 1, ?_, hc⟩
      rw [if_pos htot]
      simp only [List.isEmpty_iff, h, if_neg]
      exact heq
    · rw [if_neg htot]
      set rar := match loopSelect ft (g k * totalWeight ft) with
                 | some r => if r = "" then lastRarity ft else r
                 | none => lastRarity ft with hrar
      by_cases hav : (filterUnpulled pulled (getByRarity cards rar)).isEmpty
      · obtain ⟨c, hc, heq⟩ := randomFrom_mem hg (k + 1) h
        refine ⟨c, k + 2, ?_, hc⟩
        rw [if_pos hav]
        simp only [List.isEmpty_iff, h, if_neg]
        exact heq
      · have hne : filterUnpulled pulled (getByRarity cards rar) ≠ [] := by
          simpa [List.isEmpty_iff] using hav
        obtain ⟨c, hc, heq⟩ := randomFrom_mem hg (k + 1) hne
        exact ⟨c, k + 2, by rw [if_neg hav]; exact heq,
          filterUnpulled_rarity_subset hc⟩

lemma slotPullUnique_none {cards : Catalog} {g : ℕ → ℚ} {k : ℕ}
    {pulled : List String} (s : Slot) (h : filterUnpulled pulled cards = []) :
    slotPullUnique cards g k pulled s = (none, k) := by
  cases s with
  | fixed r => exact pullUnique_none h
  | weighted t => exact pullWeightedUnique_none h

lemma slotPullUnique_some {cards : Catalog} {g : ℕ → ℚ} (hg : validRng g) {k : ℕ}
    {pulled : List String} (s : Slot) (h : filterUnpulled pulled cards ≠ []) :
    ∃ c κ, slotPullUnique cards g k pulled s = (some c, κ) ∧
      c ∈ filterUnpulled pulled cards := by
  cases s with
  | fixed r => exact pullUnique_some hg h
  | weighted t => exact pullWeightedUnique_some hg h

/-! ## The pack fold invariant of the uniqueness variant -/

lemma invState_init (cards : Catalog) : InvState cards ⟨[], [], 0⟩ := by
  refine ⟨List.nodup_nil, ?_, ?_⟩ <;> simp

lemma invState_length_le {cards : Catalog} {st : PackState} (h : InvState cards st) :
    st.pulls.length ≤ (distinctKeys cards).length := by
  obtain ⟨hnd, _, hsub⟩ := h
  have hsubset : st.pulls.map getCardKey ⊆ distinctKeys cards := by
    intro key hk
    obtain ⟨c, hc, hkey⟩ := List.mem_map.mp hk
    rw [distinctKeys, List.mem_dedup]
    exact hkey ▸ List.mem_map_of_mem _ (hsub c hc)
  calc st.pulls.length
      = (st.pulls.map getCardKey).length := (List.length_map _ _).symm
    _ = (st.pulls.map getCardKey).toFinset.card := (List.toFinset_card_of_nodup hnd).symm
    _ ≤ (distinctKeys cards).toFinset.card := by
        apply Finset.card_le_card
        intro x hx
        exact List.mem_toFinset.mpr (hsubset (List.mem_toFinset.mp hx))
    _ = (distinctKeys cards).length := List.toFinset_card_of_nodup (List.nodup_dedup _)

lemma exhausted_iff {cards : Catalog} {st : PackState} (h : InvState cards st) :
    filterUnpulled st.pulled cards = [] ↔
      st.pulls.length = (distinctKeys cards).length := by
  obtain ⟨hnd, hiff, hsub⟩ := h
  have hsubset : st.pulls.map getCardKey ⊆ distinctKeys cards := by
    intro key hk
    obtain ⟨c, hc, hkey⟩ := List.mem_map.mp hk
    rw [distinctKeys, List.mem_dedup]
    exact hkey ▸ List.mem_map_of_mem _ (hsub c hc)
  have hPD : (st.pulls.map getCardKey).toFinset ⊆ (distinctKeys cards).toFinset := by
    intro x hx
    exact List.mem_toFinset.mpr (hsubset (List.mem_toFinset.mp hx))
  have hcardP : (st.pulls.map getCardKey).toFinset.card = st.pulls.length := by
    rw [List.toFinset_card_of_nodup hnd, List.length_map]
  have hcardD : (distinctKeys cards).toFinset.card = (distinctKeys cards).length :=
    List.toFinset_card_of_nodup (List.nodup_dedup _)
  rw [filterUnpulled_eq_nil_iff]
  constructor
  · intro hall
    have hDP : (distinctKeys cards).toFinset ⊆ (st.pulls.map getCardKey).toFinset := by
      intro x hx
      rw [List.mem_toFinset, distinctKeys, List.mem_dedup] at hx
      obtain ⟨c, hc, hkey⟩ := List.mem_map.mp hx
      rw [List.mem_toFinset]
      exact (hiff x).mp (hkey ▸ hall c hc)
    have := Finset.Subset.antisymm hPD hDP
    rw [← hcardP, this, hcardD]
  · intro hlen
    have hDsubP : (distinctKeys cards).toFinset ⊆ (st.pulls.map getCardKey).toFinset := by
      have := Finset.eq_of_subset_of_card_le hPD (by rw [hcardP, hcardD, hlen])
      rw [this]
    intro c hc
    have hkeyD : getCardKey c ∈ (distinctKeys cards).toFinset := by
      rw [List.mem_toFinset, distinctKeys, List.mem_dedup]
      exact List.mem_map_of_mem _ hc
    exact (hiff _).mpr (List.mem_toFinset.mp (hDsubP hkeyD))

lemma packStep_invState {cards : Catalog} {g : ℕ → ℚ} {st : PackState} {s : Slot}
    (hg : validRng g) (h : InvState cards st) :
    InvState cards (packStep cards g st s) ∧
      (packStep cards g st s).pulls.length =
        (if filterUnpulled st.pulled cards = [] then st.pulls.length
         else st.pulls.length + 1) := by
  by_cases hx : filterUnpulled st.pulled cards = []
  · rw [packStep, slotPullUnique_none s hx]
    exact ⟨h, by rw [if_pos hx]⟩
  · obtain ⟨c, κ, heq, hc⟩ := slotPullUnique_some hg s hx
    have hstep : packStep cards g st s =
        ⟨st.pulls ++ [c], st.pulled ++ [getCardKey c], κ⟩ := by
      rw [packStep, heq]
    rw [hstep]
    obtain ⟨hcc, hck⟩ := mem_filterUnpulled.mp hc
    have hknotin : getCardKey c ∉ st.pulls.map getCardKey :=
      fun hmem => hck ((h.2.1 _).mpr hmem)
    refine ⟨⟨?_, ?_, ?_⟩, by rw [if_neg hx]; simp⟩
    · show ((st.pulls ++ [c]).map getCardKey).Nodup
      rw [List.map_append]
      simp only [List.map_cons, List.map_nil]
      rw [List.nodup_append]
      refine ⟨h.1, List.nodup_singleton _, ?_⟩
      intro a ha hb
      rw [List.mem_singleton] at hb
      subst hb
      exact hknotin ha
    · intro s'
      show s' ∈ st.pulled ++ [getCardKey c] ↔ s' ∈ (st.pulls ++ [c]).map getCardKey
      rw [List.map_append]
      simp only [List.mem_append, List.map_cons, List.map_nil, List.mem_singleton]
      rw [h.2.1 s']
    · intro c' hc'
      rcases List.mem_append.mp hc' with hin | hin
      · exact h.2.2 c' hin
      · rw [List.mem_singleton.mp hin]
        exact hcc

lemma pack_foldl_length {cards : Catalog} {g : ℕ → ℚ} (hg : validRng g) :
    ∀ (slots : List Slot) (st : PackState), InvState cards st →
      InvState cards (slots.foldl (packStep cards g) st) ∧
      (slots.foldl (packStep cards g) st).pulls.length =
        min (distinctKeys cards).length (st.pulls.length + slots.length) := by
  intro slots
  induction slots with
  | nil =>
    intro st h
    refine ⟨h, ?_⟩
    have := invState_length_le h
    simp only [List.foldl_nil, List.length_nil]
    omega
  | cons s rest ih =>
    intro st h
    rw [List.foldl_cons]
    obtain ⟨h1, h2⟩ := packStep_invState (s := s) hg h
    obtain ⟨ih1, ih2⟩ := ih _ h1
    refine ⟨ih1, ?_⟩
    rw [ih2, h2]
    have hle := invState_length_le h
    by_cases hx : filterUnpulled st.pulled cards = []
    · have hd := (exhausted_iff h).mp hx
      rw [if_pos hx]
      simp only [List.length_cons]
      omega
    · have hd : st.pulls.length ≠ (distinctKeys cards).length :=
        fun hh => hx ((exhausted_iff h).mpr hh)
      rw [if_neg hx]
      simp only [List.length_cons]
      omega

/-- The uniqueness-variant pack: its length is `min d 10` where `d` is the
number of distinct identity keys of the catalog, and the keys of its pulls are
pairwise distinct. -/
lemma openPackUnique_spec {cards : Catalog} {g : ℕ → ℚ} (hg : validRng g) :
    (openPackUnique cards g).length = min (distinctKeys cards).length 10 ∧
      ((openPackUnique cards g).map getCardKey).Nodup := by
  by_cases hc : cards.isEmpty
  · have hnil : cards = [] := List.isEmpty_iff.mp hc
    subst hnil
    simp [openPackUnique, distinctKeys]
  · have hc2 : cards.isEmpty = false := by simpa using hc
    obtain ⟨hInv, hlen⟩ := pack_foldl_length hg packTemplate ⟨[], [], 0⟩ (invState_init cards)
    constructor
    · rw [openPackUnique, hc2]
      simp only [Bool.false_eq_true, if_false]
      rw [hlen]
      rfl
    · rw [openPackUnique, hc2]
      simp only [Bool.false_eq_true, if_false]
      exact hInv.1

/-! ## Zero-total-weight behaviour -/

lemma totalWeight_nonneg {f : List PullEntry} (hw : ∀ e ∈ f, 0 ≤ e.weight) :
    0 ≤ totalWeight f := by
  induction f with
  | nil => simp [totalWeight]
  | cons e rest ih =>
    rw [totalWeight_cons]
    have he := hw e (List.mem_cons_self e rest)
    have hr := ih (fun x hx => hw x (List.mem_cons_of_mem e hx))
    linarith

lemma totalWeight_zero_all {f : List PullEntry} (hw : ∀ e ∈ f, 0 ≤ e.weight)
    (h0 : totalWeight f = 0) : ∀ e ∈ f, e.weight = 0 := by
  induction f with
  | nil => simp
  | cons e rest ih =>
    rw [totalWeight_cons] at h0
    have he := hw e (List.mem_cons_self e rest)
    have hrw : ∀ x ∈ rest, 0 ≤ x.weight := fun x hx => hw x (List.mem_cons_of_mem e hx)
    have hr0 := totalWeight_nonneg hrw
    have he0 : e.weight = 0 := by linarith
    have hrest : totalWeight rest = 0 := by linarith
    intro x hx
    rcases List.mem_cons.mp hx with rfl | hx2
    · exact he0
    · exact ih hrw hrest x hx2

lemma loopSelect_zero {f : List PullEntry} (h : ∀ e ∈ f, e.weight = 0) :
    loopSelect f 0 = none := by
  induction f with
  | nil => rfl
  | cons e rest ih =>
    rw [loopSelect, h e (List.mem_cons_self e rest)]
    rw [if_neg (lt_irrefl (0 : ℚ)), sub_zero]
    exact ih (fun x hx => h x (List.mem_cons_of_mem e hx))

lemma weightedRoll_zero_total {cards : Catalog} {g : ℕ → ℚ} {k : ℕ}
    {table : List PullEntry} (h1 : eligible cards table ≠ [])
    (hw : ∀ e ∈ table, 0 ≤ e.weight)
    (h0 : totalWeight (eligible cards table) = 0) :
    (weightedRoll cards g k table).1 = some (lastRarity (eligible cards table)) := by
  rw [weightedRoll]
  have hfe : (eligible cards table).isEmpty = false := by
    simpa [List.isEmpty_iff] using h1
  simp only [hfe, Bool.false_eq_true, if_false]
  rw [h0, mul_zero]
  rw [loopSelect_zero (totalWeight_zero_all
    (fun e he => hw e (mem_eligible.mp he).1) h0)]

lemma pullWeightedUnique_zero_total {cards : Catalog} {g : ℕ → ℚ} {k : ℕ}
    {pulled : List String} {table : List PullEntry}
    (hF : table.filter
      (fun e => !(filterUnpulled pulled (getByRarity cards e.rarity)).isEmpty) ≠ [])
    (h0 : totalWeight (table.filter
      (fun e => !(filterUnpulled pulled (getByRarity cards e.rarity)).isEmpty)) = 0) :
    pullWeightedUnique cards g k pulled table =
      (if (filterUnpulled pulled cards).isEmpty then (none, k)
       else randomFrom g k (filterUnpulled pulled cards)) := by
  rw [pullWeightedUnique]
  have hfe : (table.filter
      (fun e => !(filterUnpulled pulled (getByRarity cards e.rarity)).isEmpty)).isEmpty
        = false := by
    simpa [List.isEmpty_iff] using hF
  simp only [hfe, Bool.false_eq_true, if_false]
  rw [if_pos h0]

/-! ## Validation lemmas -/

lemma validateCards_missing : ∀ (j : List RawCard) (i : ℕ),
    (∃ c ∈ j, hasMissing c = true) →
    ∃ idx c, j[idx]? = some c ∧ hasMissing c = true ∧
      validateCards i j =
        some (("Card ") ++ toString (i + idx) ++ (" missing ") ++ firstMissingField c) := by
  intro j
  induction j with
  | nil =>
    intro i h
    simp at h
  | cons c rest ih =>
    intro i h
    by_cases hm : hasMissing c
    · refine ⟨0, c, by simp, hm, ?_⟩
      rw [Nat.add_zero, validateCards]
      by_cases h1 : jsFalsy c.name
      · rw [if_pos h1, firstMissingField, if_pos h1]
        rw [show ((" missing name") : String) = (" missing ") ++ ("name") from by decide]
        rw [← String.append_assoc]
      · rw [if_neg h1, firstMissingField, if_neg h1]
        by_cases h2 : jsFalsy c.number
        · rw [if_pos h2, if_pos h2]
          rw [show ((" missing number") : String) = (" missing ") ++ ("number") from by decide]
          rw [← String.append_assoc]
        · rw [if_neg h2, if_neg h2]
          by_cases h3 : jsFalsy c.rarity
          · rw [if_pos h3, if_pos h3]
            rw [show ((" missing rarity") : String) = (" missing ") ++ ("rarity") from by decide]
            rw [← String.append_assoc]
          · rw [if_neg h3, if_neg h3]
            have h4 : jsFalsy c.image := by
              rw [hasMissing] at hm
              simp only [Bool.or_eq_true] at hm
              rcases hm with ((hh | hh) | hh) | hh
              · exact absurd hh h1
              · exact absurd hh h2
              · exact absurd hh h3
              · exact hh
            rw [if_pos h4]
            rw [show ((" missing image") : String) = (" missing ") ++ ("image") from by decide]
            rw [← String.append_assoc]
    · have hrest : ∃ c2 ∈ rest, hasMissing c2 = true := by
        rcases h with ⟨c2, hc2, hm2⟩
        rcases List.mem_cons.mp hc2 with rfl | hin
        · exact absurd hm2 hm
        · exact ⟨c2, hin, hm2⟩
      obtain ⟨idx, c2, hidx, hm2, heq⟩ := ih (i + 1) hrest
      have hfalse : jsFalsy c.name = false ∧ jsFalsy c.number = false ∧
          jsFalsy c.rarity = false ∧ jsFalsy c.image = false := by
        rw [hasMissing] at hm
        simp only [Bool.or_eq_true, not_or, Bool.not_eq_true] at hm
        exact ⟨hm.1.1.1, hm.1.1.2, hm.1.2, hm.2⟩
      refine ⟨idx + 1, c2, by simpa using hidx, hm2, ?_⟩
      rw [validateCards, hfalse.1, hfalse.2.1, hfalse.2.2.1, hfalse.2.2.2]
      simp only [Bool.false_eq_true, if_false]
      rw [heq]
      have : i + 1 + idx = i + (idx + 1) := by omega
      rw [this]

lemma validateCards_none : ∀ (j : List RawCard) (i : ℕ),
    (∀ c ∈ j, hasMissing c = false) → validateCards i j = none := by
  intro j
  induction j with
  | nil => intro i _; rfl
  | cons c rest ih =>
    intro i h
    have hc := h c (List.mem_cons_self c rest)
    rw [hasMissing] at hc
    simp only [Bool.or_eq_false_iff] at hc
    rw [validateCards, hc.1.1.1, hc.1.1.2, hc.1.2, hc.2]
    simp only [Bool.false_eq_true, if_false]
    exact ih (i + 1) (fun x hx => h x (List.mem_cons_of_mem c hx))

/-! ## Ledger lemmas -/

lemma bumpCount_cons (p : String × CEntry) (rest : Collection) (key : String) :
    bumpCount (p :: rest) key =
      (if p.1 == key then (p.1, { p.2 with count := p.2.count + 1 }) else p)
        :: bumpCount rest key := rfl

lemma lookupKey_cons (p : String × CEntry) (rest : Collection) (key : String) :
    lookupKey (p :: rest) key = if p.1 == key then some p.2 else lookupKey rest key := by
  simp only [lookupKey, List.find?_cons]
  cases h : (p.1 == key) <;> simp [h]

lemma lookupKey_eq_none_iff {coll : Collection} {key : String} :
    lookupKey coll key = none ↔ ∀ p ∈ coll, (p.1 == key) = false := by
  induction coll with
  | nil => simp [lookupKey]
  | cons p rest ih =>
    rw [lookupKey_cons]
    by_cases h : p.1 == key
    · rw [if_pos h]
      constructor
      · intro hc
        exact absurd hc (by simp)
      · intro hall
        have h2 := hall p (List.mem_cons_self p rest)
        rw [h] at h2
        exact absurd h2 (by simp)
    · rw [if_neg h, ih]
      constructor
      · intro hall q hq
        rcases List.mem_cons.mp hq with rfl | hq2
        · simpa using h
        · exact hall q hq2
      · intro hall q hq
        exact hall q (List.mem_cons_of_mem p hq)

lemma bumpCount_keys (coll : Collection) (key : String) :
    (bumpCount coll key).map Prod.fst = coll.map Prod.fst := by
  induction coll with
  | nil => rfl
  | cons p rest ih =>
    rw [bumpCount_cons, List.map_cons, List.map_cons, ih]
    by_cases h : p.1 == key
    · rw [if_pos h]
    · rw [if_neg h]

lemma lookupKey_bumpCount_self (coll : Collection) (key : String) :
    lookupKey (bumpCount coll key) key =
      (lookupKey coll key).map (fun e => { e with count := e.count + 1 }) := by
  induction coll with
  | nil => rfl
  | cons p rest ih =>
    rw [bumpCount_cons]
    by_cases h : p.1 == key
    · rw [if_pos h, lookupKey_cons, lookupKey_cons]
      dsimp only
      rw [if_pos h, if_pos h]
      rfl
    · rw [if_neg h, lookupKey_cons, lookupKey_cons, if_neg h, if_neg h]
      exact ih

lemma lookupKey_bumpCount_other (coll : Collection) {key key2 : String}
    (h : key2 ≠ key) :
    lookupKey (bumpCount coll key) key2 = lookupKey coll key2 := by
  induction coll with
  | nil => rfl
  | cons p rest ih =>
    rw [bumpCount_cons]
    by_cases hp : p.1 == key
    · have hp2 : (p.1 == key2) = false := by
        simp only [beq_eq_false_iff_ne, ne_eq]
        intro hc
        exact h (by rw [← hc]; exact beq_iff_eq.mp hp)
      rw [if_pos hp, lookupKey_cons, lookupKey_cons]
      dsimp only
      rw [if_neg (by simp [hp2]), if_neg (by simp [hp2])]
      exact ih
    · rw [if_neg hp, lookupKey_cons, lookupKey_cons]
      by_cases hq : p.1 == key2
      · rw [if_pos hq, if_pos hq]
      · rw [if_neg hq, if_neg hq]
        exact ih

lemma lookupKey_append_of_none {coll : Collection} {key : String}
    (h : lookupKey coll key = none) (e : CEntry) :
    lookupKey (coll ++ [(key, e)]) key = some e := by
  induction coll with
  | nil =>
    rw [List.nil_append, lookupKey_cons, if_pos (by simp)]
  | cons p rest ih =>
    rw [lookupKey_cons] at h
    by_cases hp : p.1 == key
    · rw [if_pos hp] at h
      simp at h
    · rw [if_neg hp] at h
      rw [List.cons_append, lookupKey_cons, if_neg hp]
      exact ih h

lemma lookupKey_append_other {coll : Collection} {key key0 : String}
    (h : key ≠ key0) (e : CEntry) :
    lookupKey (coll ++ [(key0, e)]) key = lookupKey coll key := by
  induction coll with
  | nil =>
    rw [List.nil_append, lookupKey_cons,
      if_neg (by simp only [beq_eq_false_iff_ne, ne_eq, Bool.not_eq_true]; exact fun hc => h hc.symm)]
  | cons p rest ih =>
    rw [List.cons_append, lookupKey_cons, lookupKey_cons]
    by_cases hp : p.1 == key
    · rw [if_pos hp, if_pos hp]
    · rw [if_neg hp, if_neg hp]
      exact ih

lemma record_count_self (coll : Collection) (c : Card) :
    entryCount (record coll c) (getCardKey c) = entryCount coll (getCardKey c) + 1 := by
  rw [record, entryCount, entryCount]
  cases hl : lookupKey coll (getCardKey c) with
  | none =>
    simp only [hl, Option.isNone_none, if_pos]
    rw [lookupKey_bumpCount_self, lookupKey_append_of_none hl]
    rfl
  | some e =>
    simp only [hl, Option.isNone_some, Bool.false_eq_true, if_false]
    rw [lookupKey_bumpCount_self, hl]
    rfl

lemma record_lookup_other (coll : Collection) (c : Card) {key : String}
    (h : key ≠ getCardKey c) :
    lookupKey (record coll c) key = lookupKey coll key := by
  rw [record]
  cases hl : lookupKey coll (getCardKey c) with
  | none =>
    simp only [hl, Option.isNone_none, if_pos]
    rw [lookupKey_bumpCount_other _ h, lookupKey_append_other h]
  | some e =>
    simp only [hl, Option.isNone_some, Bool.false_eq_true, if_false]
    rw [lookupKey_bumpCount_other _ h]

lemma record_keysNodup {coll : Collection} (c : Card)
    (h : (coll.map Prod.fst).Nodup) : ((record coll c).map Prod.fst).Nodup := by
  rw [record]
  cases hl : lookupKey coll (getCardKey c) with
  | none =>
    simp only [hl, Option.isNone_none, if_pos]
    rw [bumpCount_keys, List.map_append]
    simp only [List.map_cons, List.map_nil]
    rw [List.nodup_append]
    refine ⟨h, List.nodup_singleton _, ?_⟩
    intro a ha hb
    rw [List.mem_singleton] at hb
    subst hb
    obtain ⟨p, hp, hfst⟩ := List.mem_map.mp ha
    have := lookupKey_eq_none_iff.mp hl p hp
    rw [hfst] at this
    simp at this
  | some e =>
    simp only [hl, Option.isNone_some, Bool.false_eq_true, if_false]
    rw [bumpCount_keys]
    exact h

lemma record_creates {coll : Collection} {c : Card}
    (h : lookupKey coll (getCardKey c) = none) :
    lookupKey (record coll c) (getCardKey c) =
      some ⟨c.name, c.number, c.rarity, c.image, 1⟩ := by
  rw [record]
  simp only [h, Option.isNone_none, if_pos]
  rw [lookupKey_bumpCount_self, lookupKey_append_of_none h]
  rfl

lemma foldRecord_count (cs : List Card) : ∀ (coll : Collection) (key : String),
    entryCount (foldRecord coll cs) key =
      entryCount coll key + cs.countP (fun c => getCardKey c == key) := by
  induction cs with
  | nil =>
    intro coll key
    simp [foldRecord]
  | cons c rest ih =>
    intro coll key
    rw [foldRecord, List.foldl_cons, ← foldRecord, ih, List.countP_cons]
    by_cases hk : getCardKey c == key
    · simp only [hk, if_pos]
      have hkey : key = getCardKey c := (beq_iff_eq.mp hk).symm
      subst hkey
      rw [record_count_self]
      omega
    · simp only [hk, Bool.false_eq_true, if_false]
      have hne : key ≠ getCardKey c := by
        simp only [beq_iff_eq] at hk
        exact fun hc => hk hc.symm
      rw [entryCount, record_lookup_other coll c hne, ← entryCount]
      omega

lemma foldRecord_keysNodup (cs : List Card) : ∀ {coll : Collection},
    (coll.map Prod.fst).Nodup → ((foldRecord coll cs).map Prod.fst).Nodup := by
  induction cs with
  | nil => intro coll h; exact h
  | cons c rest ih =>
    intro coll h
    rw [foldRecord, List.foldl_cons, ← foldRecord]
    exact ih (record_keysNodup c h)

/-! ## Claim theorems -/

/-- C1 counterexample: `catND8` is non-degenerate (every rarity named in every
slot's table has a card) and `gZero` is a valid randomness stream, yet the
uniqueness-variant `openPack` returns 8 cards, not `K = 10`, so the claim does
not hold in every variant of the generator. -/
theorem openPack_ten_cards_cex :
    nonDegenerate catND8 = true ∧ validRng gZero ∧
      (openPackUnique catND8 gZero).length ≠ 10 :=
  ⟨by decide, validRng_gZero, by decide⟩

/-- C1 (amended): with a valid randomness source, a non-degenerate catalog
makes the non-unique `openPack` push exactly ten slots, all of them cards; the
uniqueness-variant `openPack` returns exactly ten cards provided the catalog
moreover has at least ten distinct identity keys. -/
theorem openPack_card_count_amended {cards : Catalog} {g : ℕ → ℚ}
    (hg : validRng g) (hnd : nonDegenerate cards = true) :
    ((openPackV1Pulls cards g).length = 10 ∧
      ∀ x ∈ openPackV1Pulls cards g, x.isSome) ∧
    (10 ≤ (distinctKeys cards).length → (openPackUnique cards g).length = 10) := by
  refine ⟨openPackV1_ten_cards hg hnd, fun hd => ?_⟩
  rw [(openPackUnique_spec hg).1]
  omega

theorem openPack_card_count_amended_witness :
    (validRng gZero ∧ nonDegenerate catND10 = true ∧
      10 ≤ (distinctKeys catND10).length) ∧
    ((openPackV1Pulls catND10 gZero).length = 10 ∧
      ∀ x ∈ openPackV1Pulls catND10 gZero, x.isSome) ∧
    (openPackUnique catND10 gZero).length = 10 :=
  ⟨⟨validRng_gZero, by decide, by decide⟩,
   (openPack_card_count_amended validRng_gZero (by decide)).1,
   (openPack_card_count_amended validRng_gZero (by decide)).2 (by decide)⟩

/-- C2: under the uniqueness policy, for a valid randomness source and a
catalog with at least `K = 10` distinct identity keys, no two cards returned
by one `openPack` call share an identity key. -/
theorem openPackUnique_no_duplicate_keys {cards : Catalog} {g : ℕ → ℚ}
    (hg : validRng g) (hd : 10 ≤ (distinctKeys cards).length) :
    ((openPackUnique cards g).map getCardKey).Nodup :=
  (openPackUnique_spec hg).2

theorem openPackUnique_no_duplicate_keys_witness :
    (validRng gZero ∧ 10 ≤ (distinctKeys catND10).length) ∧
      ((openPackUnique catND10 gZero).map getCardKey).Nodup :=
  ⟨⟨validRng_gZero, by decide⟩,
   openPackUnique_no_duplicate_keys validRng_gZero (by decide)⟩

/-- C3: whenever at least one table entry survives the empty-pool filter and
the surviving weights sum to a positive total, the rarity `weightedRoll`
selects is the one the spec describes: a uniform roll in `[0, total)` walked
through the filtered table in order, subtracting weights, stopping at the
first entry whose weight exceeds the running roll. -/
theorem weightedRoll_follows_spec {cards : Catalog} {g : ℕ → ℚ} {k : ℕ}
    {table : List PullEntry} (hg : validRng g)
    (h1 : eligible cards table ≠ [])
    (h2 : 0 < totalWeight (eligible cards table)) :
    (weightedRoll cards g k table).1 =
      specWeightedChoice cards table (g k * totalWeight (eligible cards table)) ∧
    (weightedRoll cards g k table).1.isSome := by
  have hfe : (eligible cards table).isEmpty = false := by
    simpa [List.isEmpty_iff] using h1
  have h0 : 0 ≤ g k * totalWeight (eligible cards table) :=
    mul_nonneg (hg k).1 (le_of_lt h2)
  have hlt : g k * totalWeight (eligible cards table) <
      totalWeight (eligible cards table) := by
    have hk1 := (hg k).2
    calc g k * totalWeight (eligible cards table)
        < 1 * totalWeight (eligible cards table) := by
          exact mul_lt_mul_of_pos_right hk1 h2
      _ = totalWeight (eligible cards table) := one_mul _
  obtain ⟨r, hr⟩ := Option.isSome_iff_exists.mp (loopSelect_isSome h0 hlt)
  have hcode : (weightedRoll cards g k table).1 = some r := by
    rw [weightedRoll]
    simp only [hfe, Bool.false_eq_true, if_false]
    simp [hr]
  have hspec : specWeightedChoice cards table
      (g k * totalWeight (eligible cards table)) = some r := by
    rw [show specWeightedChoice cards table
        (g k * totalWeight (eligible cards table)) =
      specWalk (eligible cards table)
        (g k * totalWeight (eligible cards table)) from rfl]
    rw [← loopSelect_eq_specWalk]
    exact hr
  refine ⟨by rw [hcode, hspec], by rw [hcode]; rfl⟩

theorem weightedRoll_follows_spec_witness :
    (validRng gHalf ∧ eligible cat1 tableC ≠ [] ∧
      0 < totalWeight (eligible cat1 tableC)) ∧
    ((weightedRoll cat1 gHalf 0 tableC).1 =
      specWeightedChoice cat1 tableC (gHalf 0 * totalWeight (eligible cat1 tableC)) ∧
     (weightedRoll cat1 gHalf 0 tableC).1.isSome) :=
  ⟨⟨validRng_gHalf, by decide, by decide⟩,
   weightedRoll_follows_spec validRng_gHalf (by decide) (by decide)⟩

/-- C4 counterexample: the table `[(Common, 0)]` over catalog `cards2` keeps
one eligible entry whose total weight is zero; the non-unique `pullWeighted`
draws the Common card from that entry's pool, while a uniform draw over the
whole catalog with the same randomness yields the Rare card — the slot is not
treated as having no eligible entries. -/
theorem pullWeighted_zero_total_cex :
    (pullWeighted cards2 gHalf 0 tableZ).1 = some ⟨"A", "1", "Common", "i"⟩ ∧
    (randomFrom gHalf 0 cards2).1 = some ⟨"B", "2", "Rare", "i"⟩ ∧
    ((⟨"A", "1", "Common", "i"⟩ : Card) ≠ ⟨"B", "2", "Rare", "i"⟩) :=
  ⟨by decide, by decide, by decide⟩

/-- C4 (amended): only the uniqueness-variant `pullWeightedUnique` treats a
zero total weight over eligible entries as "no eligible entries" and falls
back to a uniform draw over the unpulled catalog; the non-unique
`weightedRoll` instead (for the non-negative weights the data model allows)
selects the last eligible entry's rarity, so `pullWeighted` draws from that
entry's pool. -/
theorem zero_total_weight_amended :
    (∀ (cards : Catalog) (g : ℕ → ℚ) (k : ℕ) (table : List PullEntry),
      eligible cards table ≠ [] → (∀ e ∈ table, 0 ≤ e.weight) →
      totalWeight (eligible cards table) = 0 →
      (weightedRoll cards g k table).1 = some (lastRarity (eligible cards table))) ∧
    (∀ (cards : Catalog) (g : ℕ → ℚ) (k : ℕ) (pulled : List String)
        (table : List PullEntry),
      table.filter
        (fun e => !(filterUnpulled pulled (getByRarity cards e.rarity)).isEmpty) ≠ [] →
      totalWeight (table.filter
        (fun e => !(filterUnpulled pulled (getByRarity cards e.rarity)).isEmpty)) = 0 →
      pullWeightedUnique cards g k pulled table =
        (if (filterUnpulled pulled cards).isEmpty then (none, k)
         else randomFrom g k (filterUnpulled pulled cards))) :=
  ⟨fun _ _ _ _ h1 hw h0 => weightedRoll_zero_total h1 hw h0,
   fun _ _ _ _ _ hF h0 => pullWeightedUnique_zero_total hF h0⟩

theorem zero_total_weight_amended_witness :
    (eligible cards2 tableZ ≠ [] ∧ (∀ e ∈ tableZ, 0 ≤ e.weight) ∧
      totalWeight (eligible cards2 tableZ) = 0) ∧
    (weightedRoll cards2 gHalf 0 tableZ).1 = some (lastRarity (eligible cards2 tableZ)) ∧
    (tableZ.filter
      (fun e => !(filterUnpulled [] (getByRarity cards2 e.rarity)).isEmpty) ≠ [] ∧
     totalWeight (tableZ.filter
      (fun e => !(filterUnpulled [] (getByRarity cards2 e.rarity)).isEmpty)) = 0) ∧
    pullWeightedUnique cards2 gHalf 0 [] tableZ =
      (if (filterUnpulled [] cards2).isEmpty then (none, 0)
       else randomFrom gHalf 0 (filterUnpulled [] cards2)) :=
  ⟨⟨by decide, by decide, by decide⟩,
   zero_total_weight_amended.1 cards2 gHalf 0 tableZ (by decide) (by decide) (by decide),
   ⟨by decide, by decide⟩,
   zero_total_weight_amended.2 cards2 gHalf 0 [] tableZ (by decide) (by decide)⟩

/-- C5 counterexample: sorting a two-entry collection in which one number
("promo") fails the `^(\d+)([a-z]?)$` pattern makes the comparator
dereference a null match result — a TypeError aborts the whole sort (`none`)
and no per-entry MalformedCardNumber reporting or fallback happens. -/
theorem collection_sort_crash_cex :
    jsSortEntries [entryGood, entryBad] = none ∧
      compareEntries entryGood entryBad = none :=
  ⟨by decide, by decide⟩

/-- C5 (amended): the collection sort succeeds exactly when every entry's
number matches the pattern; with two or more entries, any entry whose number
fails to parse crashes the whole sort, instead of surfacing a
MalformedCardNumber error for that entry. -/
theorem collection_sort_amended :
    (∀ arr : List CEntry, (∀ a ∈ arr, (matchCardNumber a.number).isSome) →
      jsSortEntries arr =
        some (if arr.length ≤ 1 then arr
              else arr.mergeSort (fun a b => (compareEntries a b).getD 0 ≤ 0))) ∧
    (∀ arr : List CEntry, 2 ≤ arr.length →
      (∃ a ∈ arr, matchCardNumber a.number = none) → jsSortEntries arr = none) := by
  constructor
  · intro arr hall
    rw [jsSortEntries]
    by_cases hl : arr.length ≤ 1
    · rw [if_pos hl, if_pos hl]
    · rw [if_neg hl, if_neg hl]
      have hany : arr.any (fun a => (matchCardNumber a.number).isNone) = false := by
        rw [List.any_eq_false]
        intro a ha
        have := hall a ha
        cases hma : matchCardNumber a.number with
        | none => rw [hma] at this; exact absurd this (by simp)
        | some v => simp [hma]
      rw [hany]
      simp
  · intro arr h2 hex
    obtain ⟨a, ha, hnone⟩ := hex
    rw [jsSortEntries, if_neg (by omega)]
    have hany : arr.any (fun a => (matchCardNumber a.number).isNone) = true := by
      rw [List.any_eq_true]
      exact ⟨a, ha, by simp [hnone]⟩
    rw [hany]
    simp

theorem collection_sort_amended_witness :
    ((∀ a ∈ [entryGood], (matchCardNumber a.number).isSome) ∧
      jsSortEntries [entryGood] =
        some (if ([entryGood] : List CEntry).length ≤ 1 then [entryGood]
              else [entryGood].mergeSort (fun a b => (compareEntries a b).getD 0 ≤ 0))) ∧
    ((2 ≤ ([entryGood, entryBad] : List CEntry).length ∧
      ∃ a ∈ [entryGood, entryBad], matchCardNumber a.number = none) ∧
      jsSortEntries [entryGood, entryBad] = none) :=
  ⟨⟨by decide, collection_sort_amended.1 [entryGood] (by decide)⟩,
   ⟨⟨by decide, by decide⟩,
    collection_sort_amended.2 [entryGood, entryBad] (by decide) (by decide)⟩⟩

/-- C6: with an empty catalog the predicate sets match zero cards; the first
script variant computes `collected / max * 100` unguarded, performing the
division by zero the claim forbids (an undefined NaN ratio, modelled `none`),
while the second variant returns the defined value 0 without dividing. -/
theorem progress_divzero_bug :
    regularProgressV1 [] [] = none ∧ masterProgressV1 [] [] = none ∧
    regularProgressV2 [] [] = 0 ∧ masterProgressV2 [] [] = 0 :=
  ⟨by decide, by decide, by decide, by decide⟩

/-- C7: calling `openPack` with no catalog loaded surfaces the
"Set not loaded" alert, yields no pack at all (not an empty one), and leaves
the stats and the collection exactly as they were, in both generator
variants. -/
theorem openPack_empty_catalog_guard (g : ℕ → ℚ) (s : Stats) (coll : Collection) :
    openPackUniqueFull [] g s coll = (none, s, coll, some ("Set not loaded")) ∧
    openPackV1Full [] g s coll = (none, s, coll, some ("Set not loaded")) :=
  ⟨rfl, rfl⟩

/-- C8: if any raw card of a load is missing one of the four required fields,
`applySetJSON` aborts the load, keeps the previous catalog intact, and alerts
`Invalid set:` naming an offending card index together with its first missing
field. -/
theorem applySetJSON_rejects_missing_field (old : Catalog) (j : List RawCard)
    (h : ∃ c ∈ j, hasMissing c = true) :
    ∃ idx c, j[idx]? = some c ∧ hasMissing c = true ∧
      applySetJSON old j = (old, some (missingReport idx c)) := by
  obtain ⟨idx, c, hidx, hm, heq⟩ := validateCards_missing j 0 h
  refine ⟨idx, c, hidx, hm, ?_⟩
  rw [applySetJSON, validateSetJSON, heq]
  have hsplit : (("Invalid set:\nCard ") : String) = ("Invalid set:\n") ++ ("Card ") := by
    decide
  rw [missingReport, Nat.zero_add, hsplit]
  simp only [String.append_assoc]

theorem applySetJSON_rejects_missing_field_witness :
    (∃ c ∈ rawJBad, hasMissing c = true) ∧
    ∃ idx c, rawJBad[idx]? = some c ∧ hasMissing c = true ∧
      applySetJSON cat1 rawJBad = (cat1, some (missingReport idx c)) :=
  ⟨by decide, applySetJSON_rejects_missing_field cat1 rawJBad (by decide)⟩

/-- C9: folding drawn cards into the ledger keeps at most one entry per
identity key, creates the entry from the card's fields (count 1) on the first
record of an absent key, accumulates each key's count to its previous count
plus the number of times the key occurs in the fold — hence the count of
every recorded key is at least 1 and never decreases. -/
theorem record_ledger_invariant (coll0 : Collection) (cs : List Card)
    (h : (coll0.map Prod.fst).Nodup) :
    ((foldRecord coll0 cs).map Prod.fst).Nodup ∧
    (∀ key, entryCount (foldRecord coll0 cs) key =
      entryCount coll0 key + cs.countP (fun c => getCardKey c == key)) ∧
    (∀ c : Card, lookupKey coll0 (getCardKey c) = none →
      lookupKey (record coll0 c) (getCardKey c) =
        some ⟨c.name, c.number, c.rarity, c.image, 1⟩) ∧
    (∀ c ∈ cs, 1 ≤ entryCount (foldRecord coll0 cs) (getCardKey c)) := by
  refine ⟨foldRecord_keysNodup cs h, fun key => foldRecord_count cs coll0 key,
    fun c hc => record_creates hc, ?_⟩
  intro c hc
  rw [foldRecord_count]
  have hpos : 0 < cs.countP (fun x => getCardKey x == getCardKey c) := by
    rw [List.countP_pos_iff]
    exact ⟨c, hc, by simp⟩
  omega

theorem record_ledger_invariant_witness :
    ((([] : Collection)).map Prod.fst).Nodup ∧
    (((foldRecord [] recCards).map Prod.fst).Nodup ∧
    (∀ key, entryCount (foldRecord [] recCards) key =
      entryCount [] key + recCards.countP (fun c => getCardKey c == key)) ∧
    (∀ c : Card, lookupKey [] (getCardKey c) = none →
      lookupKey (record [] c) (getCardKey c) =
        some ⟨c.name, c.number, c.rarity, c.image, 1⟩) ∧
    (∀ c ∈ recCards, 1 ≤ entryCount (foldRecord [] recCards) (getCardKey c))) :=
  ⟨by decide, record_ledger_invariant [] recCards (by decide)⟩

/-- C10: for a valid randomness source and a non-empty catalog with `d`
distinct identity keys, the uniqueness-variant `openPack` returns exactly
`min d 10` cards: a slot whose rarity pool and catalog fallback are both
exhausted is skipped without retry, so the pack shrinks instead of padding or
erroring. -/
theorem openPackUnique_pack_shrinks {cards : Catalog} {g : ℕ → ℚ}
    (hg : validRng g) (hne : cards ≠ []) :
    (openPackUnique cards g).length = min (distinctKeys cards).length 10 :=
  (openPackUnique_spec hg).1

theorem openPackUnique_pack_shrinks_witness :
    (validRng gZero ∧ cat3 ≠ []) ∧
      (openPackUnique cat3 gZero).length = min (distinctKeys cat3).length 10 :=
  ⟨⟨validRng_gZero, by decide⟩,
   openPackUnique_pack_shrinks validRng_gZero (by decide)⟩

end PackOpener

